import Mathlib

/-!
Verification of the chat core of the darlynalt-app mobile client
(`src/screens/ChatScreen.tsx`), shallowly embedded in Lean.

Timestamps (`createdAt`, `lastSeen`, the current time) are modelled as
natural numbers of epoch milliseconds; the JavaScript `Date` arithmetic in
the source only ever compares `getTime()` values or takes floor quotients
of nonnegative differences, both of which are natural-number operations.
Calendar days (`toDateString` keys) are modelled by the day index
`t / 86400000`; the locale rendering of a full date label is abstracted as
the day index itself, since no claim depends on the rendered text.
-/

namespace DarlynChat

open scoped List

/-- A read receipt entry, from the `readBy` array of a message
(`ChatScreen.tsx`, `Message` interface). -/
structure ReadReceipt where
  userId : String
  readAt : String
deriving DecidableEq

/-- A chat message (`ChatScreen.tsx`, `Message` interface).  `createdAt` is
epoch milliseconds. -/
structure Message where
  _id : String
  content : Option String
  senderId : String
  senderRole : String
  createdAt : Nat
  images : List String
  readBy : List ReadReceipt
deriving DecidableEq

/-- A contact (`ChatScreen.tsx`, `User` interface).  `lastSeen` is epoch
milliseconds when present. -/
structure User where
  _id : String
  name : String
  email : String
  lastSeen : Option Nat
  isOnline : Bool
  unreadCount : Nat
deriving DecidableEq

/-- Result of `getActivityStatus`: a label and a colour. -/
structure ActivityStatus where
  text : String
  color : String
deriving DecidableEq

/-- `getActivityStatus` (`ChatScreen.tsx` lines 103-125).  The implicit
current time `new Date()` is passed explicitly as `now`;
`diffMinutes = Math.floor((now - lastSeen) / 60000)`. -/
def getActivityStatus (now : Nat) (user : User) : ActivityStatus :=
  if user.isOnline then
    { text := "Online", color := "#4CAF50" }
  else
    match user.lastSeen with
    | none => { text := "Offline", color := "#999" }
    | some lastSeen =>
      let diffMinutes := (now - lastSeen) / 60000
      if diffMinutes < 5 then
        { text := "Just now", color := "#4CAF50" }
      else if diffMinutes < 60 then
        { text := toString diffMinutes ++ "m ago", color := "#FF9800" }
      else if diffMinutes < 1440 then
        { text := toString (diffMinutes / 60) ++ "h ago", color := "#FF9800" }
      else
        { text := toString (diffMinutes / 1440) ++ "d ago", color := "#999" }

/-- The `userOnline` presence handler (`ChatScreen.tsx` lines 231-236):
map over the contact list, setting `isOnline := true` on the matching id. -/
def applyUserOnline (onlineUserId : String) (users : List User) : List User :=
  users.map (fun user => if user._id = onlineUserId then { user with isOnline := true } else user)

/-- The `userOffline` presence handler (`ChatScreen.tsx` lines 238-247):
map over the contact list, setting `isOnline := false` on the matching id. -/
def applyUserOffline (offlineUserId : String) (users : List User) : List User :=
  users.map (fun user => if user._id = offlineUserId then { user with isOnline := false } else user)

/-- The replace step of the send protocol (`ChatScreen.tsx` lines 538-539):
`prev.map(msg => (msg._id === tempId ? res.data : msg))`. -/
def replaceTempMessage (messages : List Message) (tempId : String) (resData : Message) :
    List Message :=
  messages.map (fun msg => if msg._id = tempId then resData else msg)

/-- The lookup into the `Map` built from the mark-read response
(`ChatScreen.tsx` lines 332-336).  A JavaScript `Map` built from an entry
list keeps the last entry for a duplicated key, so `get` is `find?` over
the reversed list. -/
def lookupUpdated (updatedMessages : List Message) (id : String) : Option Message :=
  updatedMessages.reverse.find? (fun u => u._id = id)

/-- The merge of a mark-read response (`ChatScreen.tsx` lines 330-339):
`prevMessages.map(msg => updatedMessagesMap.get(msg._id) ?? msg)`. -/
def mergeMarkRead (prevMessages updatedMessages : List Message) : List Message :=
  prevMessages.map (fun msg => (lookupUpdated updatedMessages msg._id).getD msg)

/-- JavaScript `String.prototype.trim()`: strip whitespace from both ends
of the string.  Written over the character list so that it is computable
by the kernel. -/
def jsTrim (s : String) : String :=
  String.mk (((s.data.dropWhile Char.isWhitespace).reverse.dropWhile Char.isWhitespace).reverse)

/-- The component state touched by `sendMessage` (`ChatScreen.tsx`).
`roomId`, `userId` and `role` are the nullable pieces of React state read
by the guard. -/
structure ChatState where
  messages : List Message
  inputText : String
  sending : Bool
  roomId : Option String
  userId : Option String
  role : Option String
deriving DecidableEq

/-- `sendMessage` (`ChatScreen.tsx` lines 506-555), with the network
outcome passed explicitly: `result = some resData` for a successful
persistence request, `none` for a failed one.  Returns the final state
paired with whether a persistence request was issued.  The guard is
`if (!inputText.trim() || !roomId || !userId || sending) return`. -/
def sendMessage (s : ChatState) (now : Nat) (result : Option Message) : ChatState × Bool :=
  if jsTrim s.inputText = "" ∨ s.roomId = none ∨ s.userId = none ∨ s.sending = true then
    (s, false)
  else
    let messageText := jsTrim s.inputText
    let tempId := "temp-" ++ toString now
    let tempMessage : Message :=
      { _id := tempId, content := some messageText,
        senderId := (match s.userId with | some uid => uid | none => ""),
        senderRole := (match s.role with | some role => role | none => "customer"),
        createdAt := now, images := [], readBy := [] }
    let appended := s.messages ++ [tempMessage]
    match result with
    | some resData =>
      ({ s with messages := replaceTempMessage appended tempId resData,
                inputText := "", sending := false }, true)
    | none =>
      ({ s with messages := appended.filter (fun msg => msg._id ≠ tempId),
                inputText := messageText, sending := false }, true)

/-- The calendar-day index of an epoch-millisecond timestamp, modelling the
`toDateString()` grouping key of `groupMessagesByDate`. -/
def dayKey (t : Nat) : Nat := t / 86400000

/-- The date label of a group (`ChatScreen.tsx` lines 80-92).  The locale
rendering of a full date is abstracted as the day index. -/
inductive DateLabel where
  | isToday
  | isYesterday
  | fullDate (day : Nat)
deriving DecidableEq

/-- A date group (`ChatScreen.tsx`, `GroupedMessages` interface); `date` is
the day index of the group's `dateKey`. -/
structure GroupedMessages where
  date : Nat
  dateLabel : DateLabel
  messages : List Message
deriving DecidableEq

/-- One step of the accumulation loop of `groupMessagesByDate`
(`ChatScreen.tsx` lines 64-72): push the message onto the entry for its day
key, or add a fresh entry for the key.  Key insertion order (first
occurrence) is preserved, as for a JavaScript object's string keys. -/
def insertByDay (groups : List (Nat × List Message)) (m : Message) : List (Nat × List Message) :=
  match groups with
  | [] => [(dayKey m.createdAt, [m])]
  | (k, g) :: rest =>
    if k = dayKey m.createdAt then (k, g ++ [m]) :: rest
    else (k, g) :: insertByDay rest m

/-- The `groups` object of `groupMessagesByDate` after the `forEach` loop
(`ChatScreen.tsx` lines 62-72). -/
def buildGroups (messages : List Message) : List (Nat × List Message) :=
  messages.foldl insertByDay []

/-- The in-group comparator of `groupMessagesByDate` (line 97):
ascending by `createdAt` time.  JavaScript `Array.prototype.sort` is a
stable sort, modelled by `List.mergeSort`. -/
def createdLe (a b : Message) : Bool := a.createdAt ≤ b.createdAt

/-- The group comparator of `groupMessagesByDate` (line 99): ascending by
the group's date. -/
def dateLe (a b : GroupedMessages) : Bool := a.date ≤ b.date

/-- The per-key body of `groupMessagesByDate` (lines 74-98): label the day
relative to `today` and sort the day's messages by time. -/
def toDateGroup (today : Nat) (kg : Nat × List Message) : GroupedMessages :=
  { date := kg.1,
    dateLabel :=
      if kg.1 = today then DateLabel.isToday
      else if kg.1 + 1 = today then DateLabel.isYesterday
      else DateLabel.fullDate kg.1,
    messages := kg.2.mergeSort createdLe }

/-- `groupMessagesByDate` (`ChatScreen.tsx` lines 61-100), with the current
day passed explicitly as `today`. -/
def groupMessagesByDate (today : Nat) (messages : List Message) : List GroupedMessages :=
  ((buildGroups messages).map (toDateGroup today)).mergeSort dateLe

/-- The `newMessage` socket handler (`ChatScreen.tsx` lines 439-445):
append unless a message with the same id already exists. -/
def applyNewMessage (prev : List Message) (msg : Message) : List Message :=
  if prev.any (fun existingMsg => existingMsg._id = msg._id) then prev
  else prev ++ [msg]

/-- The `messageUpdated` socket handler (`ChatScreen.tsx` lines 454-458):
replace the matching message wholesale with the pushed copy. -/
def applyMessageUpdated (prev : List Message) (updatedMsg : Message) : List Message :=
  prev.map (fun msg => if msg._id = updatedMsg._id then updatedMsg else msg)

/-- The `findIndex`-then-assign-or-push update of a `readBy` list in the
`messageRead` handler (`ChatScreen.tsx` lines 465-472): overwrite the first
entry with the given `userId`, or append a new entry. -/
def updateReadByEntry : List ReadReceipt → String → String → List ReadReceipt
  | [], uid, readAt => [{ userId := uid, readAt := readAt }]
  | r :: rest, uid, readAt =>
    if r.userId = uid then { userId := uid, readAt := readAt } :: rest
    else r :: updateReadByEntry rest uid readAt

/-- The `messageRead` socket handler (`ChatScreen.tsx` lines 461-479):
on the message matching the event's id, when sent by the current user,
append-or-update the `readBy` entry for the event's user. -/
def applyMessageRead (currentUserId : String) (prev : List Message)
    (messageId evUserId readAt : String) : List Message :=
  prev.map (fun msg =>
    if msg._id = messageId ∧ msg.senderId = currentUserId then
      { msg with readBy := updateReadByEntry msg.readBy evUserId readAt }
    else msg)

/-- The message-store operations an active room applies
(`ChatScreen.tsx`: `newMessage` handler, the replace step of
`sendMessage`, `messageUpdated` and `messageRead` handlers, and the
mark-read response merge). -/
inductive StoreOp where
  | newMessage (msg : Message)
  | replaceTemp (tempId : String) (resData : Message)
  | messageUpdated (updatedMsg : Message)
  | messageRead (messageId evUserId readAt : String)
  | markReadMerge (updatedMessages : List Message)
deriving DecidableEq

/-- Apply one store operation, dispatching to the handler it names. -/
def applyStoreOp (currentUserId : String) (prev : List Message) : StoreOp → List Message
  | StoreOp.newMessage msg => applyNewMessage prev msg
  | StoreOp.replaceTemp tempId resData => replaceTempMessage prev tempId resData
  | StoreOp.messageUpdated updatedMsg => applyMessageUpdated prev updatedMsg
  | StoreOp.messageRead messageId evUserId readAt =>
      applyMessageRead currentUserId prev messageId evUserId readAt
  | StoreOp.markReadMerge updatedMessages => mergeMarkRead prev updatedMessages

/-- Apply a sequence of store operations in order. -/
def applyStoreOps (currentUserId : String) (init : List Message) (ops : List StoreOp) :
    List Message :=
  ops.foldl (applyStoreOp currentUserId) init

/-- No two stored messages share an id. -/
def uniqueIds (messages : List Message) : Prop :=
  (messages.map (fun m => m._id)).Nodup

/-- Side condition under which a store operation preserves id uniqueness:
a temp-replacement must not introduce an id already borne by a different
stored message.  All other operations are unconditionally safe. -/
def opSafe (prev : List Message) : StoreOp → Prop
  | StoreOp.replaceTemp tempId resData =>
      ∀ m ∈ prev, m._id ≠ tempId → m._id ≠ resData._id
  | _ => True

/-- `opSafe` holding at every intermediate state of an operation
sequence. -/
def opsSafe (currentUserId : String) : List Message → List StoreOp → Prop
  | _, [] => True
  | prev, op :: rest =>
      opSafe prev op ∧ opsSafe currentUserId (applyStoreOp currentUserId prev op) rest

/-- Sample message used in concrete witnesses. -/
def msgW : Message :=
  { _id := "m1", content := some (r"hello"), senderId := "u1", senderRole := "customer",
    createdAt := 1000, images := [], readBy := [] }

/-- Second sample message used in concrete witnesses. -/
def msgW2 : Message :=
  { msgW with _id := "m2", createdAt := 2000 }

/-- Sample contact used in concrete witnesses. -/
def userW : User :=
  { _id := "w1", name := "Ada", email := "a", lastSeen := some 0,
    isOnline := false, unreadCount := 0 }

/-- C6.  The date-group projection is a pure function: two invocations on
the same message list with the same current day produce identical output. -/
theorem project_deterministic (today : Nat) (messages1 messages2 : List Message)
    (h : messages1 = messages2) :
    groupMessagesByDate today messages1 = groupMessagesByDate today messages2 := by
  rw [h]

/-- Witness for `project_deterministic` at a concrete input. -/
theorem project_deterministic_witness :
    groupMessagesByDate 0 [msgW] = groupMessagesByDate 0 [msgW] :=
  project_deterministic 0 [msgW] [msgW] rfl

/-- C7.  The activity label is the stated pure function of
`{isOnline, lastSeen}`: online yields the online label, an absent
`lastSeen` yields the offline label, and otherwise the label is a bucket
of the age `now - lastSeen`, with the count taken in whole minutes, hours
or days. -/
theorem activity_label_spec (now : Nat) (user : User) :
    (user.isOnline = true → (getActivityStatus now user).text = "Online")
    ∧ (user.isOnline = false → user.lastSeen = none →
        (getActivityStatus now user).text = "Offline")
    ∧ (∀ t, user.isOnline = false → user.lastSeen = some t → t ≤ now →
        ((now - t < 300000 → (getActivityStatus now user).text = "Just now")
        ∧ (300000 ≤ now - t → now - t < 3600000 →
            (getActivityStatus now user).text = toString ((now - t) / 60000) ++ "m ago")
        ∧ (3600000 ≤ now - t → now - t < 86400000 →
            (getActivityStatus now user).text = toString ((now - t) / 3600000) ++ "h ago")
        ∧ (86400000 ≤ now - t →
            (getActivityStatus now user).text = toString ((now - t) / 86400000) ++ "d ago"))) := by
  refine ⟨fun hon => by simp [getActivityStatus, hon],
          fun hoff hnone => by simp [getActivityStatus, hoff, hnone],
          fun t hoff hsome ht => ?_⟩
  have hmin : (now - t) / 60000 / 60 = (now - t) / 3600000 := by
    rw [Nat.div_div_eq_div_mul]
  have hday : (now - t) / 60000 / 1440 = (now - t) / 86400000 := by
    rw [Nat.div_div_eq_div_mul]
  refine ⟨fun h1 => ?_, fun h2a h2b => ?_, fun h3a h3b => ?_, fun h4 => ?_⟩
  · have hb : (now - t) / 60000 < 5 := by omega
    simp [getActivityStatus, hoff, hsome, hb]
  · have hb1 : ¬ (now - t) / 60000 < 5 := by omega
    have hb2 : (now - t) / 60000 < 60 := by omega
    simp [getActivityStatus, hoff, hsome, hb1, hb2]
  · have hb1 : ¬ (now - t) / 60000 < 5 := by omega
    have hb2 : ¬ (now - t) / 60000 < 60 := by omega
    have hb3 : (now - t) / 60000 < 1440 := by omega
    simp [getActivityStatus, hoff, hsome, hb1, hb2, hb3, hmin]
  · have hb1 : ¬ (now - t) / 60000 < 5 := by omega
    have hb2 : ¬ (now - t) / 60000 < 60 := by omega
    have hb3 : ¬ (now - t) / 60000 < 1440 := by omega
    simp [getActivityStatus, hoff, hsome, hb1, hb2, hb3, hday]

/-- Witness for `activity_label_spec`: a contact last seen 2 minutes ago
is labelled as just now. -/
theorem activity_label_spec_witness :
    (getActivityStatus 120000 userW).text = "Just now" :=
  ((activity_label_spec 120000 userW).2.2 0 rfl rfl (by omega)).1 (by omega)

/-- C8.  A presence event whose user id matches no contact leaves the
contact list unchanged, and in particular its length unchanged: no contact
is created from a presence event alone. -/
theorem presence_unmatched_noop (uid : String) (users : List User)
    (h : ∀ u ∈ users, u._id ≠ uid) :
    applyUserOnline uid users = users ∧ applyUserOffline uid users = users
    ∧ (applyUserOnline uid users).length = users.length
    ∧ (applyUserOffline uid users).length = users.length := by
  have h1 : applyUserOnline uid users = users := by
    unfold applyUserOnline
    calc users.map (fun user => if user._id = uid then { user with isOnline := true } else user)
        = users.map id := List.map_congr_left (fun u hu => by simp [h u hu])
      _ = users := List.map_id users
  have h2 : applyUserOffline uid users = users := by
    unfold applyUserOffline
    calc users.map (fun user => if user._id = uid then { user with isOnline := false } else user)
        = users.map id := List.map_congr_left (fun u hu => by simp [h u hu])
      _ = users := List.map_id users
  exact ⟨h1, h2, by rw [h1], by rw [h2]⟩

/-- An id matching no contact, used in concrete witnesses. -/
def unknownId : String := "nobody"

/-- Witness for `presence_unmatched_noop`: an offline event for an unknown
id leaves a one-contact list untouched. -/
theorem presence_unmatched_noop_witness :
    applyUserOnline unknownId [userW] = [userW] ∧ applyUserOffline unknownId [userW] = [userW]
    ∧ (applyUserOnline unknownId [userW]).length = [userW].length
    ∧ (applyUserOffline unknownId [userW]).length = [userW].length :=
  presence_unmatched_noop unknownId [userW]
    (by intro u hu; simp at hu; simp [hu, userW, unknownId])

/-- C9.  If the trimmed input is empty, or no room id is set, or the user
id has not loaded, or a send is already in flight, `sendMessage` changes
nothing and issues no persistence request. -/
theorem sendMessage_guard_noop (s : ChatState) (now : Nat) (result : Option Message)
    (h : jsTrim s.inputText = "" ∨ s.roomId = none ∨ s.userId = none ∨ s.sending = true) :
    sendMessage s now result = (s, false) := by
  unfold sendMessage
  rw [if_pos h]

/-- A chat state with empty input, used in concrete witnesses. -/
def idleStateW : ChatState :=
  { messages := [msgW], inputText := "", sending := false,
    roomId := some (r"room1"), userId := some (r"u1"), role := some (r"customer") }

/-- Witness for `sendMessage_guard_noop`: invoking send with an empty
input field is a no-op. -/
theorem sendMessage_guard_noop_witness :
    sendMessage idleStateW 5 none = (idleStateW, false) :=
  sendMessage_guard_noop idleStateW 5 none (Or.inl (by decide))

/-- A chat state about to send the text in its input field, used in
concrete witnesses. -/
def readyStateW : ChatState :=
  { idleStateW with inputText := "Hello" }

/-- C4.  When the persistence request for a text message fails, the
temporary optimistic message is removed again — the message log equals its
state before the send — and the input field is restored to exactly the
text that was being sent (the trimmed input). -/
theorem send_failure_rollback (s : ChatState) (now : Nat)
    (htrim : ¬ jsTrim s.inputText = "") (hroom : ¬ s.roomId = none) (huser : ¬ s.userId = none)
    (hsending : s.sending = false)
    (hfresh : ∀ m ∈ s.messages, m._id ≠ "temp-" ++ toString now) :
    (sendMessage s now none).1.messages = s.messages ∧
    (sendMessage s now none).1.inputText = jsTrim s.inputText := by
  have hguard :
      ¬ (jsTrim s.inputText = "" ∨ s.roomId = none ∨ s.userId = none ∨ s.sending = true) := by
    simp [htrim, hroom, huser, hsending]
  unfold sendMessage
  rw [if_neg hguard]
  refine ⟨?_, rfl⟩
  simp only [List.filter_append]
  have h1 : s.messages.filter (fun msg => msg._id ≠ "temp-" ++ toString now) = s.messages :=
    List.filter_eq_self.mpr (fun m hm => by simp [hfresh m hm])
  simp [h1]
  exact fun a ha => hfresh a ha

/-- Witness for `send_failure_rollback`: a failing send of the text in
`readyStateW` leaves the log as before and the input text restored. -/
theorem send_failure_rollback_witness :
    (sendMessage readyStateW 5 none).1.messages = readyStateW.messages ∧
    (sendMessage readyStateW 5 none).1.inputText = jsTrim readyStateW.inputText :=
  send_failure_rollback readyStateW 5 (by decide) (by decide) (by decide) (by rfl)
    (by intro m hm; simp [readyStateW, idleStateW] at hm; simp [hm, msgW]; decide)

/-- C3.  Replacing the temporary optimistic message after a successful
send keeps it at the same ordinal position in the log: the length is
unchanged, the position that held the temp id now holds the
server-returned message, and every position holding a different id is
unchanged. -/
theorem replace_preserves_positions (messages : List Message) (tempId : String)
    (resData : Message) :
    (replaceTempMessage messages tempId resData).length = messages.length ∧
    ∀ (i : Nat) (m : Message), messages[i]? = some m →
      ((m._id = tempId → (replaceTempMessage messages tempId resData)[i]? = some resData)
      ∧ (m._id ≠ tempId → (replaceTempMessage messages tempId resData)[i]? = some m)) := by
  refine ⟨by simp [replaceTempMessage], fun i m hm => ⟨fun heq => ?_, fun hne => ?_⟩⟩
  · simp [replaceTempMessage, hm, heq]
  · simp [replaceTempMessage, hm, hne]

/-- Witness for `replace_preserves_positions`: replacing the temp entry in
a two-message log swaps position 1 and keeps position 0. -/
theorem replace_preserves_positions_witness :
    ((replaceTempMessage [msgW, msgW2] (msgW2._id) msgW)[1]? = some msgW)
    ∧ ((replaceTempMessage [msgW, msgW2] (msgW2._id) msgW)[0]? = some msgW) := by
  refine ⟨((replace_preserves_positions [msgW, msgW2] (msgW2._id) msgW).2 1 msgW2
      (by rfl)).1 rfl, ((replace_preserves_positions [msgW, msgW2] (msgW2._id) msgW).2 0 msgW
      (by rfl)).2 (by decide)⟩

/-- C10.  Merging a mark-read response touches exactly the positions whose
message id appears in the response: the length is unchanged, a message
whose id matches no response entry stays at its position, and a message
whose id matches is replaced in place by the server's copy of that id. -/
theorem markRead_merge_frame (prev updates : List Message) :
    (mergeMarkRead prev updates).length = prev.length ∧
    ∀ (i : Nat) (m : Message), prev[i]? = some m →
      (((∀ u ∈ updates, u._id ≠ m._id) → (mergeMarkRead prev updates)[i]? = some m)
      ∧ ((∃ u ∈ updates, u._id = m._id) →
          ∃ srv, (mergeMarkRead prev updates)[i]? = some srv ∧ srv ∈ updates
            ∧ srv._id = m._id)) := by
  refine ⟨by simp [mergeMarkRead], fun i m hm => ⟨fun hnone => ?_, fun hsome => ?_⟩⟩
  · have hl : lookupUpdated updates m._id = none := by
      apply List.find?_eq_none.mpr
      intro u hu
      simp [hnone u (List.mem_reverse.mp hu)]
    simp [mergeMarkRead, hm, hl]
  · obtain ⟨u, hu, hid⟩ := hsome
    have hsome2 : (lookupUpdated updates m._id).isSome := by
      apply List.find?_isSome.mpr
      exact ⟨u, List.mem_reverse.mpr hu, by simp [hid]⟩
    obtain ⟨srv, hsrv⟩ := Option.isSome_iff_exists.mp hsome2
    refine ⟨srv, by simp [mergeMarkRead, hm, hsrv], ?_, ?_⟩
    · exact List.mem_reverse.mp (List.mem_of_find?_eq_some hsrv)
    · have := List.find?_some hsrv
      simpa using this

/-- Witness for `markRead_merge_frame`: a two-message log merged with a
response updating only the second message. -/
theorem markRead_merge_frame_witness :
    ((mergeMarkRead [msgW, msgW2] [{ msgW2 with senderRole := r"x" }])[0]? = some msgW)
    ∧ ∃ srv, (mergeMarkRead [msgW, msgW2] [{ msgW2 with senderRole := r"x" }])[1]? = some srv
        ∧ srv ∈ [{ msgW2 with senderRole := r"x" }] ∧ srv._id = msgW2._id := by
  refine ⟨((markRead_merge_frame [msgW, msgW2] [{ msgW2 with senderRole := r"x" }]).2 0 msgW
      (by rfl)).1 (by decide), ((markRead_merge_frame [msgW, msgW2]
      [{ msgW2 with senderRole := r"x" }]).2 1 msgW2 (by rfl)).2 ?_⟩
  exact ⟨{ msgW2 with senderRole := r"x" }, by simp, by rfl⟩

/-- The `messageUpdated` handler preserves the stored id at every
position: the pushed copy replaces only the message bearing its own id. -/
theorem applyMessageUpdated_ids (prev : List Message) (u : Message) :
    (applyMessageUpdated prev u).map (fun m => m._id) = prev.map (fun m => m._id) := by
  unfold applyMessageUpdated
  rw [List.map_map]
  apply List.map_congr_left
  intro m _
  by_cases h : m._id = u._id <;> simp [Function.comp, h]

/-- The `messageRead` handler preserves the stored id at every position. -/
theorem applyMessageRead_ids (currentUserId : String) (prev : List Message)
    (messageId evUserId readAt : String) :
    (applyMessageRead currentUserId prev messageId evUserId readAt).map (fun m => m._id)
      = prev.map (fun m => m._id) := by
  unfold applyMessageRead
  rw [List.map_map]
  apply List.map_congr_left
  intro m _
  by_cases h : m._id = messageId ∧ m.senderId = currentUserId <;> simp [Function.comp, h]

/-- The mark-read merge preserves the stored id at every position: the
server copy substituted for a message bears that message's id. -/
theorem mergeMarkRead_ids (prev updates : List Message) :
    (mergeMarkRead prev updates).map (fun m => m._id) = prev.map (fun m => m._id) := by
  unfold mergeMarkRead
  rw [List.map_map]
  apply List.map_congr_left
  intro m _
  cases heq : lookupUpdated updates m._id with
  | none => simp [Function.comp, heq]
  | some srv =>
    have hp := List.find?_some heq
    simp only [decide_eq_true_eq] at hp
    simp [Function.comp, heq, hp]

/-- The `newMessage` handler preserves id uniqueness: it appends only when
the id is absent. -/
theorem applyNewMessage_unique (prev : List Message) (m : Message)
    (h : uniqueIds prev) : uniqueIds (applyNewMessage prev m) := by
  unfold applyNewMessage
  by_cases hany : prev.any (fun existingMsg => existingMsg._id = m._id)
  · rw [if_pos hany]; exact h
  · rw [if_neg hany]
    unfold uniqueIds at h ⊢
    simp only [List.map_append, List.map_singleton]
    rw [(List.perm_append_singleton _ _).nodup_iff]
    rw [List.nodup_cons]
    refine ⟨?_, h⟩
    intro hmem
    apply hany
    obtain ⟨x, hx, hxid⟩ := List.mem_map.mp hmem
    exact List.any_eq_true.mpr ⟨x, hx, by simp [hxid]⟩

/-- The temp-replacement preserves id uniqueness provided the replacement
id is not already borne by a different stored message. -/
theorem replaceTemp_unique (prev : List Message) (tempId : String) (resData : Message)
    (h : uniqueIds prev)
    (hsafe : ∀ m ∈ prev, m._id ≠ tempId → m._id ≠ resData._id) :
    uniqueIds (replaceTempMessage prev tempId resData) := by
  unfold uniqueIds replaceTempMessage at *
  rw [List.map_map]
  have hg : ((fun m => m._id) ∘ fun msg => if msg._id = tempId then resData else msg)
      = fun msg : Message => if msg._id = tempId then resData._id else msg._id := by
    funext msg
    by_cases hc : msg._id = tempId <;> simp [Function.comp, hc]
  rw [hg]
  induction prev with
  | nil => simp
  | cons a rest ih =>
    simp only [List.map_cons, List.nodup_cons] at h ⊢
    obtain ⟨ha, hrest⟩ := h
    refine ⟨?_, ih hrest (fun m hm hne => hsafe m (List.mem_cons_of_mem a hm) hne)⟩
    intro hmem
    obtain ⟨x, hx, hxeq⟩ := List.mem_map.mp hmem
    have hxa : x._id ≠ a._id := by
      intro hcontra
      exact ha (hcontra ▸ List.mem_map_of_mem (fun m => m._id) hx)
    by_cases hax : a._id = tempId
    · rw [if_pos hax] at hxeq
      have hxt : x._id ≠ tempId := fun hc => hxa (hc.trans hax.symm)
      rw [if_neg hxt] at hxeq
      exact hsafe x (List.mem_cons_of_mem a hx) hxt hxeq
    · rw [if_neg hax] at hxeq
      by_cases hxt : x._id = tempId
      · rw [if_pos hxt] at hxeq
        exact hsafe a (List.mem_cons_self a rest) hax hxeq.symm
      · rw [if_neg hxt] at hxeq
        exact hxa hxeq

/-- Every store operation preserves id uniqueness under its `opSafe` side
condition. -/
theorem applyStoreOp_unique (currentUserId : String) (prev : List Message) (op : StoreOp)
    (h : uniqueIds prev) (hsafe : opSafe prev op) :
    uniqueIds (applyStoreOp currentUserId prev op) := by
  cases op with
  | newMessage msg => exact applyNewMessage_unique prev msg h
  | replaceTemp tempId resData => exact replaceTemp_unique prev tempId resData h hsafe
  | messageUpdated updatedMsg =>
    unfold applyStoreOp uniqueIds
    rw [applyMessageUpdated_ids]
    exact h
  | messageRead messageId evUserId readAt =>
    unfold applyStoreOp uniqueIds
    rw [applyMessageRead_ids]
    exact h
  | markReadMerge updatedMessages =>
    unfold applyStoreOp uniqueIds
    rw [mergeMarkRead_ids]
    exact h

/-- C1 (amended).  Across every sequence of store operations starting from
a store with unique ids, no two stored messages share an id — provided
each temp-replacement's server message id is not already borne by another
stored message (`opsSafe`); and the `newMessage` handler drops a pushed
copy whose id is already present, so a push of a just-confirmed message
leaves exactly one copy. -/
theorem store_ops_unique_ids (currentUserId : String) (ops : List StoreOp)
    (init : List Message) (hinit : uniqueIds init)
    (hsafe : opsSafe currentUserId init ops) :
    uniqueIds (applyStoreOps currentUserId init ops)
    ∧ ∀ (prev : List Message) (m : Message),
        m._id ∈ prev.map (fun x => x._id) → applyNewMessage prev m = prev := by
  constructor
  · induction ops generalizing init with
    | nil => exact hinit
    | cons op rest ih =>
      exact ih (applyStoreOp currentUserId init op)
        (applyStoreOp_unique currentUserId init op hinit hsafe.1) hsafe.2
  · intro prev m hmem
    unfold applyNewMessage
    rw [if_pos ?hc]
    case hc =>
      obtain ⟨x, hx, hxid⟩ := List.mem_map.mp hmem
      exact List.any_eq_true.mpr ⟨x, hx, by simp [hxid]⟩

/-- Current-user id used in concrete inputs. -/
def cuW : String := "u1"

/-- An optimistic temporary message, for the C1 counterexample. -/
def tempMsgC1 : Message :=
  { _id := "temp-1", content := some (r"hi"), senderId := "u1", senderRole := "customer",
    createdAt := 0, images := [], readBy := [] }

/-- The id of `tempMsgC1`. -/
def tempIdC1 : String := "temp-1"

/-- The server-confirmed copy of `tempMsgC1`, for the C1 counterexample. -/
def finalMsgC1 : Message :=
  { tempMsgC1 with _id := "m1" }

/-- Counterexample to C1 as stated: if the server pushes the confirmed
copy of a just-sent message before the send's replacement step runs, the
`newMessage` append (which sees no duplicate id yet) followed by the
unconditional temp-replacement leaves two stored messages with the same
id. -/
theorem store_ops_unique_ids_cex :
    uniqueIds [tempMsgC1]
    ∧ ¬ uniqueIds (applyStoreOps cuW [tempMsgC1]
        [StoreOp.newMessage finalMsgC1, StoreOp.replaceTemp tempIdC1 finalMsgC1])
    ∧ applyStoreOps cuW [tempMsgC1]
        [StoreOp.newMessage finalMsgC1, StoreOp.replaceTemp tempIdC1 finalMsgC1]
      = [finalMsgC1, finalMsgC1] := by
  refine ⟨?_, ?_, ?_⟩
  · unfold uniqueIds
    decide
  · unfold uniqueIds
    decide
  · decide

/-- Witness for `store_ops_unique_ids`: a fresh inbound message appended
to a one-message store keeps ids unique. -/
theorem store_ops_unique_ids_witness :
    uniqueIds (applyStoreOps cuW [msgW] [StoreOp.newMessage msgW2]) :=
  (store_ops_unique_ids cuW [StoreOp.newMessage msgW2] [msgW]
    (by unfold uniqueIds; decide) ⟨trivial, trivial⟩).1

/-- An entry of a `readBy` list whose user differs from the event's user
survives the `findIndex`-then-assign-or-push update unchanged. -/
theorem updateReadByEntry_keeps (l : List ReadReceipt) (uid readAt : String) :
    ∀ r ∈ l, r.userId ≠ uid → r ∈ updateReadByEntry l uid readAt := by
  induction l with
  | nil => simp
  | cons a rest ih =>
    intro r hr hne
    unfold updateReadByEntry
    by_cases ha : a.userId = uid
    · rw [if_pos ha]
      rcases List.mem_cons.mp hr with h | h
      · exact absurd (h ▸ ha) hne
      · exact List.mem_cons_of_mem _ h
    · rw [if_neg ha]
      rcases List.mem_cons.mp hr with h | h
      · exact h ▸ List.mem_cons_self _ _
      · exact List.mem_cons_of_mem _ (ih r h hne)

/-- After the `findIndex`-then-assign-or-push update, the event's user id
is present in the `readBy` list. -/
theorem updateReadByEntry_has_uid (l : List ReadReceipt) (uid readAt : String) :
    uid ∈ (updateReadByEntry l uid readAt).map (fun r => r.userId) := by
  induction l with
  | nil => simp [updateReadByEntry]
  | cons a rest ih =>
    unfold updateReadByEntry
    by_cases ha : a.userId = uid
    · rw [if_pos ha]; simp
    · rw [if_neg ha]
      simp only [List.map_cons, List.mem_cons]
      exact Or.inr ih

/-- C2 (amended).  The `messageRead` receipt handler only appends or
updates `readBy` entries keyed by `userId`, never removing one: every user
id present before remains present, and every entry for a different user
survives unchanged.  The `messageUpdated` handler and the mark-read merge
instead replace the stored message wholesale with the server's copy, so
after them the `readBy` list is exactly the server copy's list; entries
persist across those two operations only when the server copy carries
them. -/
theorem readBy_update_behavior (currentUserId : String) (prev updates : List Message)
    (messageId evUserId readAt : String) :
    (∀ (i : Nat) (m : Message), prev[i]? = some m →
      ∃ mAfter, (applyMessageRead currentUserId prev messageId evUserId readAt)[i]? = some mAfter
        ∧ mAfter._id = m._id
        ∧ (∀ r ∈ m.readBy, r.userId ∈ mAfter.readBy.map (fun x => x.userId))
        ∧ (∀ r ∈ m.readBy, r.userId ≠ evUserId → r ∈ mAfter.readBy))
    ∧ (∀ (i : Nat) (m upd : Message), prev[i]? = some m → m._id = upd._id →
        (applyMessageUpdated prev upd)[i]? = some upd)
    ∧ (∀ (i : Nat) (m srv : Message), prev[i]? = some m →
        lookupUpdated updates m._id = some srv →
        (mergeMarkRead prev updates)[i]? = some srv) := by
  refine ⟨fun i m hm => ?_, fun i m upd hm hid => ?_, fun i m srv hm hl => ?_⟩
  · by_cases hc : m._id = messageId ∧ m.senderId = currentUserId
    · refine ⟨{ m with readBy := updateReadByEntry m.readBy evUserId readAt },
        by simp [applyMessageRead, hm, hc], rfl, ?_, ?_⟩
      · intro r hr
        by_cases hu : r.userId = evUserId
        · exact hu ▸ updateReadByEntry_has_uid m.readBy evUserId readAt
        · exact List.mem_map_of_mem (fun x => x.userId)
            (updateReadByEntry_keeps m.readBy evUserId readAt r hr hu)
      · exact fun r hr hu => updateReadByEntry_keeps m.readBy evUserId readAt r hr hu
    · refine ⟨m, by simp [applyMessageRead, hm, hc], rfl, ?_, fun r hr _ => hr⟩
      exact fun r hr => List.mem_map_of_mem (fun x => x.userId) hr
  · simp [applyMessageUpdated, hm, hid]
  · simp [mergeMarkRead, hm, hl]

/-- A stored message carrying a read receipt, for the C2 counterexample. -/
def msgC2 : Message :=
  { _id := "m1", content := some (r"hi"), senderId := "u1", senderRole := "customer",
    createdAt := 0, images := [],
    readBy := [{ userId := "u2", readAt := "t1" }] }

/-- A pushed `messageUpdated` copy of `msgC2` with an empty `readBy`
list, for the C2 counterexample. -/
def updC2 : Message :=
  { msgC2 with readBy := [] }

/-- Counterexample to C2 as stated: a `messageUpdated` event whose server
copy carries an empty `readBy` list replaces the stored message wholesale,
so the entry for user u2 that the message contained before the operation
is lost. -/
theorem readBy_update_behavior_cex :
    (applyMessageUpdated [msgC2] updC2)[0]? = some updC2
    ∧ updC2._id = msgC2._id
    ∧ ¬ (∀ r ∈ msgC2.readBy, r.userId ∈ updC2.readBy.map (fun x => x.userId)) := by
  refine ⟨?_, by decide, by decide⟩
  unfold applyMessageUpdated
  decide

/-- The reading user's id, for the C2 witness. -/
def readerW : String := "u2"

/-- The read timestamp, for the C2 witness. -/
def readAtW : String := "t9"

/-- Witness for `readBy_update_behavior`: a read receipt for user u2 is
appended to the sender's own one-message log. -/
theorem readBy_update_behavior_witness :
    ∃ mAfter, (applyMessageRead cuW [msgW] (msgW._id) (readerW) (readAtW))[0]? = some mAfter
      ∧ mAfter._id = msgW._id
      ∧ (∀ r ∈ msgW.readBy, r.userId ∈ mAfter.readBy.map (fun x => x.userId))
      ∧ (∀ r ∈ msgW.readBy, r.userId ≠ readerW → r ∈ mAfter.readBy) :=
  (readBy_update_behavior cuW [msgW] [] (msgW._id) readerW readAtW).1 0 msgW (by rfl)

/-- Bool predicate: the message belongs to calendar day `k`. -/
def sameDay (k : Nat) (m : Message) : Bool := dayKey m.createdAt = k

/-- Inserting a message leaves the key list unchanged when its day is
already present and appends the day otherwise. -/
theorem insertByDay_keys (acc : List (Nat × List Message)) (m : Message) :
    (insertByDay acc m).map Prod.fst =
      if dayKey m.createdAt ∈ acc.map Prod.fst then acc.map Prod.fst
      else acc.map Prod.fst ++ [dayKey m.createdAt] := by
  induction acc with
  | nil => simp [insertByDay]
  | cons kg0 rest ih =>
    obtain ⟨k, g⟩ := kg0
    by_cases hk : k = dayKey m.createdAt
    · simp [insertByDay, hk]
    · have hk2 : dayKey m.createdAt ≠ k := fun hc => hk hc.symm
      simp only [insertByDay, if_neg hk, List.map_cons, ih, List.mem_cons]
      by_cases hmem : dayKey m.createdAt ∈ rest.map Prod.fst
      · simp [hmem, hk2]
      · simp [hmem, hk2]

/-- Inserting a message preserves distinctness of the day keys. -/
theorem insertByDay_keys_nodup (acc : List (Nat × List Message)) (m : Message)
    (h : (acc.map Prod.fst).Nodup) : ((insertByDay acc m).map Prod.fst).Nodup := by
  rw [insertByDay_keys]
  by_cases hmem : dayKey m.createdAt ∈ acc.map Prod.fst
  · rw [if_pos hmem]; exact h
  · rw [if_neg hmem]
    rw [(List.perm_append_singleton _ _).nodup_iff, List.nodup_cons]
    exact ⟨hmem, h⟩

/-- Each entry of the accumulator holds exactly the processed messages of
its day, in arrival order, and inserting one more message maintains
that. -/
theorem insertByDay_snd (m : Message) (processed : List Message) :
    ∀ (acc : List (Nat × List Message)),
      (acc.map Prod.fst).Nodup →
      (∀ kg ∈ acc, kg.2 = processed.filter (sameDay kg.1)) →
      (dayKey m.createdAt ∉ acc.map Prod.fst →
        processed.filter (sameDay (dayKey m.createdAt)) = []) →
      ∀ kg ∈ insertByDay acc m, kg.2 = (processed ++ [m]).filter (sameDay kg.1) := by
  intro acc
  induction acc with
  | nil =>
    intro _ _ hnew kg hkg
    simp only [insertByDay, List.mem_singleton] at hkg
    subst hkg
    have h0 : processed.filter (sameDay (dayKey m.createdAt)) = [] := hnew (by simp)
    simp [List.filter_append, h0, sameDay]
  | cons kg0 rest ih =>
    obtain ⟨k, g⟩ := kg0
    intro hnodup hsnd hnew kg hkg
    simp only [List.map_cons, List.nodup_cons] at hnodup
    by_cases hk : k = dayKey m.createdAt
    · rw [show insertByDay ((k, g) :: rest) m = (k, g ++ [m]) :: rest from by
        simp [insertByDay, hk]] at hkg
      rcases List.mem_cons.mp hkg with h | h
      · subst h
        have hg : g = processed.filter (sameDay k) := hsnd (k, g) (List.mem_cons_self _ _)
        rw [List.filter_append]
        have hfm : List.filter (sameDay k) [m] = [m] := by simp [sameDay, hk]
        rw [hfm, ← hg]
      · have hkgne : kg.1 ≠ dayKey m.createdAt := by
          intro hcontra
          apply hnodup.1
          have hmem : kg.1 ∈ rest.map Prod.fst := List.mem_map_of_mem Prod.fst h
          rw [hcontra, ← hk] at hmem
          exact hmem
        rw [List.filter_append]
        have hfm : List.filter (sameDay kg.1) [m] = [] := by
          simp [sameDay]
          exact fun hc => hkgne hc.symm
        rw [hfm, List.append_nil]
        exact hsnd kg (List.mem_cons_of_mem _ h)
    · rw [show insertByDay ((k, g) :: rest) m = (k, g) :: insertByDay rest m from by
        simp [insertByDay, hk]] at hkg
      rcases List.mem_cons.mp hkg with h | h
      · subst h
        rw [List.filter_append]
        have hfm : List.filter (sameDay k) [m] = [] := by
          simp [sameDay]
          exact fun hc => hk hc.symm
        rw [hfm, List.append_nil]
        exact hsnd (k, g) (List.mem_cons_self _ _)
      · refine ih hnodup.2 (fun kg2 hkg2 => hsnd kg2 (List.mem_cons_of_mem _ hkg2)) ?_ kg h
        intro hnot
        apply hnew
        simp only [List.map_cons, List.mem_cons]
        rintro (hc | hc)
        · exact hk hc.symm
        · exact hnot hc

/-- Invariant of the grouping fold: day keys are distinct, each entry is
the filter of the processed prefix on its day, and each processed
message's day has an entry. -/
def GroupsInv (processed : List Message) (acc : List (Nat × List Message)) : Prop :=
  (acc.map Prod.fst).Nodup
  ∧ (∀ kg ∈ acc, kg.2 = processed.filter (sameDay kg.1))
  ∧ (∀ m ∈ processed, dayKey m.createdAt ∈ acc.map Prod.fst)

/-- One insertion step maintains the grouping invariant. -/
theorem groupsInv_insert (processed : List Message) (acc : List (Nat × List Message))
    (m : Message) (h : GroupsInv processed acc) :
    GroupsInv (processed ++ [m]) (insertByDay acc m) := by
  obtain ⟨h1, h2, h3⟩ := h
  refine ⟨insertByDay_keys_nodup acc m h1, ?_, ?_⟩
  · refine insertByDay_snd m processed acc h1 h2 ?_
    intro hnot
    refine List.filter_eq_nil_iff.mpr (fun x hx hpx => ?_)
    have hday : dayKey x.createdAt = dayKey m.createdAt := by
      simpa [sameDay] using hpx
    exact hnot (hday ▸ h3 x hx)
  · intro m2 hm2
    rw [insertByDay_keys]
    by_cases hmem : dayKey m.createdAt ∈ acc.map Prod.fst
    · rw [if_pos hmem]
      rcases List.mem_append.mp hm2 with h | h
      · exact h3 m2 h
      · simp only [List.mem_singleton] at h
        subst h
        exact hmem
    · rw [if_neg hmem]
      rcases List.mem_append.mp hm2 with h | h
      · exact List.mem_append_left _ (h3 m2 h)
      · simp only [List.mem_singleton] at h
        subst h
        exact List.mem_append_right _ (by simp)

/-- The grouping fold maintains the invariant over any suffix of
messages. -/
theorem groupsInv_foldl : ∀ (msgs processed : List Message)
    (acc : List (Nat × List Message)), GroupsInv processed acc →
    GroupsInv (processed ++ msgs) (msgs.foldl insertByDay acc)
  | [], processed, acc, h => by simpa using h
  | m :: rest, processed, acc, h => by
    have hstep := groupsInv_foldl rest (processed ++ [m]) (insertByDay acc m)
      (groupsInv_insert processed acc m h)
    simpa [List.append_assoc] using hstep

/-- The grouping invariant holds of the fully built groups. -/
theorem buildGroups_inv (msgs : List Message) : GroupsInv msgs (buildGroups msgs) := by
  have h := groupsInv_foldl msgs [] [] ⟨by simp, by simp, by simp⟩
  simpa [buildGroups] using h

/-- Inserting a message adds it (once) to the multiset of grouped
messages. -/
theorem insertByDay_flatten (acc : List (Nat × List Message)) (m : Message) :
    ((insertByDay acc m).map Prod.snd).flatten ~ (acc.map Prod.snd).flatten ++ [m] := by
  induction acc with
  | nil => simp [insertByDay]
  | cons kg0 rest ih =>
    obtain ⟨k, g⟩ := kg0
    by_cases hk : k = dayKey m.createdAt
    · simp only [insertByDay, if_pos hk, List.map_cons, List.flatten_cons]
      calc (g ++ [m]) ++ (rest.map Prod.snd).flatten
          = g ++ ([m] ++ (rest.map Prod.snd).flatten) := by rw [List.append_assoc]
        _ ~ g ++ ((rest.map Prod.snd).flatten ++ [m]) :=
            List.Perm.append_left g List.perm_append_comm
        _ = (g ++ (rest.map Prod.snd).flatten) ++ [m] := by rw [List.append_assoc]
    · simp only [insertByDay, if_neg hk, List.map_cons, List.flatten_cons]
      calc g ++ ((insertByDay rest m).map Prod.snd).flatten
          ~ g ++ ((rest.map Prod.snd).flatten ++ [m]) := List.Perm.append_left g ih
        _ = (g ++ (rest.map Prod.snd).flatten) ++ [m] := by rw [List.append_assoc]

/-- The grouping fold preserves the multiset of messages. -/
theorem foldl_flatten : ∀ (msgs : List Message) (acc : List (Nat × List Message)),
    ((msgs.foldl insertByDay acc).map Prod.snd).flatten ~ (acc.map Prod.snd).flatten ++ msgs
  | [], acc => by simp
  | m :: rest, acc => by
    calc ((rest.foldl insertByDay (insertByDay acc m)).map Prod.snd).flatten
        ~ ((insertByDay acc m).map Prod.snd).flatten ++ rest := foldl_flatten rest _
      _ ~ ((acc.map Prod.snd).flatten ++ [m]) ++ rest :=
          (insertByDay_flatten acc m).append_right rest
      _ = (acc.map Prod.snd).flatten ++ (m :: rest) := by simp [List.append_assoc]

/-- The built groups carry exactly the original multiset of messages. -/
theorem buildGroups_flatten (msgs : List Message) :
    ((buildGroups msgs).map Prod.snd).flatten ~ msgs := by
  have h := foldl_flatten msgs []
  simpa [buildGroups] using h

/-- The in-group comparator is transitive. -/
theorem createdLe_trans : ∀ (a b c : Message), createdLe a b → createdLe b c → createdLe a c := by
  intro a b c hab hbc
  simp only [createdLe, decide_eq_true_eq] at hab hbc ⊢
  omega

/-- The in-group comparator is total. -/
theorem createdLe_total : ∀ (a b : Message), createdLe a b || createdLe b a := by
  intro a b
  simp only [createdLe, Bool.or_eq_true, decide_eq_true_eq]
  omega

/-- The group comparator is transitive. -/
theorem dateLe_trans : ∀ (a b c : GroupedMessages), dateLe a b → dateLe b c → dateLe a c := by
  intro a b c hab hbc
  simp only [dateLe, decide_eq_true_eq] at hab hbc ⊢
  omega

/-- The group comparator is total. -/
theorem dateLe_total : ∀ (a b : GroupedMessages), dateLe a b || dateLe b a := by
  intro a b
  simp only [dateLe, Bool.or_eq_true, decide_eq_true_eq]
  omega

/-- C5.  Grouping by calendar day yields groups strictly ascending by
date, each group internally ascending by `createdAt`; flattening the
groups in order restores exactly the original multiset of messages; and a
pair of equal-timestamp messages of the same day keeps its arrival order
inside its group (stability). -/
theorem group_and_flatten_spec (today : Nat) (msgs : List Message) :
    ((groupMessagesByDate today msgs).Pairwise (fun g1 g2 => g1.date < g2.date))
    ∧ (∀ g ∈ groupMessagesByDate today msgs,
        g.messages.Pairwise (fun a b => a.createdAt ≤ b.createdAt))
    ∧ (((groupMessagesByDate today msgs).map (fun g => g.messages)).flatten ~ msgs)
    ∧ (∀ (a b : Message), [a, b] <+ msgs →
        dayKey a.createdAt = dayKey b.createdAt → a.createdAt = b.createdAt →
        ∃ g ∈ groupMessagesByDate today msgs, [a, b] <+ g.messages) := by
  obtain ⟨hnodup, hsnd, hcover⟩ := buildGroups_inv msgs
  have hperm : groupMessagesByDate today msgs ~ (buildGroups msgs).map (toDateGroup today) :=
    List.mergeSort_perm _ _
  refine ⟨?_, ?_, ?_, ?_⟩
  · have hsorted : (groupMessagesByDate today msgs).Pairwise (fun g1 g2 => g1.date ≤ g2.date) := by
      have h := List.sorted_mergeSort dateLe_trans dateLe_total
        ((buildGroups msgs).map (toDateGroup today))
      exact h.imp (fun hab => by simpa [dateLe] using hab)
    have hne : (groupMessagesByDate today msgs).Pairwise (fun g1 g2 => g1.date ≠ g2.date) := by
      have hnd : (((buildGroups msgs).map (toDateGroup today)).map
          (fun g => g.date)).Nodup := by
        rw [List.map_map]
        have hcomp : ((fun g : GroupedMessages => g.date) ∘ toDateGroup today)
            = (Prod.fst : Nat × List Message → Nat) := by
          funext kg
          rfl
        rw [hcomp]
        exact hnodup
      have hnd2 : ((groupMessagesByDate today msgs).map (fun g => g.date)).Nodup :=
        ((hperm.map (fun g => g.date)).nodup_iff).mpr hnd
      exact (List.pairwise_map).mp hnd2
    exact hsorted.imp₂ (fun g1 g2 hle hne2 => lt_of_le_of_ne hle hne2) hne
  · intro g hg
    obtain ⟨kg, hkg, hgeq⟩ := List.mem_map.mp (List.mem_mergeSort.mp hg)
    subst hgeq
    have h := List.sorted_mergeSort createdLe_trans createdLe_total kg.2
    exact h.imp (fun hab => by simpa [createdLe] using hab)
  · have h3 : (((buildGroups msgs).map (toDateGroup today)).map (fun g => g.messages))
        = (buildGroups msgs).map (fun kg => kg.2.mergeSort createdLe) := by
      rw [List.map_map]
      rfl
    have h4 : ∀ (gs : List (Nat × List Message)),
        (gs.map (fun kg => kg.2.mergeSort createdLe)).flatten ~ (gs.map Prod.snd).flatten := by
      intro gs
      induction gs with
      | nil => simp
      | cons kg rest ih =>
        simp only [List.map_cons, List.flatten_cons]
        exact (List.mergeSort_perm kg.2 createdLe).append ih
    calc ((groupMessagesByDate today msgs).map (fun g => g.messages)).flatten
        ~ (((buildGroups msgs).map (toDateGroup today)).map (fun g => g.messages)).flatten :=
          (hperm.map (fun g => g.messages)).flatten
      _ = ((buildGroups msgs).map (fun kg => kg.2.mergeSort createdLe)).flatten := by rw [h3]
      _ ~ ((buildGroups msgs).map Prod.snd).flatten := h4 (buildGroups msgs)
      _ ~ msgs := buildGroups_flatten msgs
  · intro a b hab hday heq
    have ha : a ∈ msgs := hab.subset (by simp)
    have hk : dayKey a.createdAt ∈ (buildGroups msgs).map Prod.fst := hcover a ha
    obtain ⟨kg, hkg, hfst⟩ := List.mem_map.mp hk
    refine ⟨toDateGroup today kg, List.mem_mergeSort.mpr
      (List.mem_map_of_mem (toDateGroup today) hkg), ?_⟩
    show [a, b] <+ kg.2.mergeSort createdLe
    apply List.pair_sublist_mergeSort createdLe_trans createdLe_total
    · simp [createdLe, heq]
    · rw [hsnd kg hkg]
      have hfilter := hab.filter (sameDay kg.1)
      have hfa : sameDay kg.1 a = true := by simp [sameDay, hfst]
      have hfb : sameDay kg.1 b = true := by
        simp only [sameDay, decide_eq_true_eq, ← hday]
        exact hfst.symm
      simpa [List.filter_cons, hfa, hfb] using hfilter

/-- An equal-timestamp copy of `msgW` with a different id, for the C5
witness. -/
def msgWc : Message :=
  { msgW with _id := "m3" }

/-- Witness for `group_and_flatten_spec`: two equal-timestamp messages
stay in arrival order inside their day group. -/
theorem group_and_flatten_spec_witness :
    ∃ g ∈ groupMessagesByDate 0 [msgW, msgWc], [msgW, msgWc] <+ g.messages :=
  (group_and_flatten_spec 0 [msgW, msgWc]).2.2.2 msgW msgWc
    (List.Sublist.refl _) rfl rfl

end DarlynChat
